import Mathlib

/-!
Verification of a priority queue implemented on an unbalanced binary search
tree (source: `src/pq.py`).  The tree core (`contains`, `insert`, `remove`,
`leftmost`, `rightmost`, in-order iteration), the queue operations
(`min_val`, `delete_min`), the two sort helpers (`st_sort`, `pq_sort`) and
the four merge algorithms are embedded shallowly: the mutable
`SearchTree`/`PriorityQueue` wrapper holds exactly one root tree, so its
state is modelled by a `Tree` value and every mutating method by a function
returning the new root.  Python exceptions (an attribute error when an
extremum of an empty tree is taken, the `assert` in the special merges)
are modelled with `Except PQError`.  The `while` loops draining a queue are
modelled with explicit fuel set to the tree size; the lemmas below show this
fuel always suffices on trees satisfying the BST invariant.
-/

set_option linter.unusedSectionVars false
set_option linter.unusedVariables false

namespace PQ

/-- Binary trees: `Tree = Optional[Node]`, a `Node` holds a value and two
subtrees (`src/pq.py`, class `Node`). -/
inductive Tree (α : Type) where
  | nil : Tree α
  | node (value : α) (left : Tree α) (right : Tree α) : Tree α
deriving Repr, DecidableEq

/-- Error kinds surfaced by the library: taking an extremum of an empty
container, and the failed `assert` guarding the special merges. -/
inductive PQError where
  | emptyContainer : PQError
  | assertionFailed : PQError
deriving Repr, DecidableEq

variable {α : Type} [LinearOrder α]

/-- `contains(tree, val)` from `src/pq.py`. -/
def contains : Tree α → α → Bool
  | .nil, _ => false
  | .node v l r, val =>
      if val < v then contains l val
      else if v < val then contains r val
      else true

/-- `insert(tree, val)` from `src/pq.py`: persistent insertion; when `val`
equals the node value the very same tree is returned. -/
def insert : Tree α → α → Tree α
  | .nil, val => .node val .nil .nil
  | .node v l r, val =>
      if val < v then .node v (insert l val) r
      else if v < val then .node v l (insert r val)
      else .node v l r

/-- The loop of `rightmost(tree)`: starting from a node with value `v` and
right subtree `r`, follow right children while they exist, then return the
value reached. -/
def rightmostAux (v : α) : Tree α → α
  | .nil => v
  | .node w _ r => rightmostAux w r

/-- `rightmost(tree)` from `src/pq.py`; on an empty tree the attribute
access `tree.right` fails, modelled as the empty-container error. -/
def rightmostE : Tree α → Except PQError α
  | .nil => .error .emptyContainer
  | .node v _ r => .ok (rightmostAux v r)

/-- The loop of `leftmost(tree)`: follow left children while they exist. -/
def leftmostAux (v : α) : Tree α → α
  | .nil => v
  | .node w l _ => leftmostAux w l

/-- `PriorityQueue.min_val`, i.e. `leftmost(self.root)`: fails with the
empty-container error when the held root is empty. -/
def min_val : Tree α → Except PQError α
  | .nil => .error .emptyContainer
  | .node v l _ => .ok (leftmostAux v l)

/-- `remove(tree, val)` from `src/pq.py`: persistent BST deletion with
predecessor substitution (`rightmost` of the left subtree). -/
def remove : Tree α → α → Tree α
  | .nil, _ => .nil
  | .node v l r, val =>
      if val < v then .node v (remove l val) r
      else if v < val then .node v l (remove r val)
      else
        match l, r with
        | .nil, _ => r
        | .node lv ll lr, .nil => .node lv ll lr
        | .node lv ll lr, .node rv rl rr =>
            .node (rightmostAux lv lr)
              (remove (.node lv ll lr) (rightmostAux lv lr))
              (.node rv rl rr)

/-- `iterate(tree)` from `src/pq.py`: in-order traversal, materialised as
the list of produced values. -/
def iterate : Tree α → List α
  | .nil => []
  | .node v l r => iterate l ++ v :: iterate r

/-- Number of nodes; used as loop fuel for the draining `while` loops. -/
def size : Tree α → Nat
  | .nil => 0
  | .node _ l r => size l + size r + 1

/-- `SearchTree.__init__` / `PriorityQueue.__init__` on a data sequence:
start from the empty root and insert the elements one at a time. -/
def fromList (l : List α) : Tree α :=
  l.foldl insert .nil

/-- `st_sort(x)` from `src/pq.py`: build a search tree from `x` and iterate
it in order. -/
def st_sort (l : List α) : List α :=
  iterate (fromList l)

/-- `PriorityQueue.delete_min`: read the minimum, remove it from the held
root, return both the minimum and the new root. -/
def delete_min (t : Tree α) : Except PQError (α × Tree α) := do
  let m ← min_val t
  pure (m, remove t m)

/-- The loop `while pq.root: sorted.append(pq.delete_min())` of `pq_sort`,
with explicit fuel. -/
def drainFuel : Nat → Tree α → List α
  | 0, _ => []
  | _ + 1, .nil => []
  | fuel + 1, .node v l r =>
      leftmostAux v l :: drainFuel fuel (remove (.node v l r) (leftmostAux v l))

/-- Drain a queue completely by repeated `delete_min`. -/
def pqDrain (t : Tree α) : List α :=
  drainFuel (size t) t

/-- `pq_sort(x)` from `src/pq.py`: build a priority queue from `x`, then
extract minima until it is empty. -/
def pq_sort (l : List α) : List α :=
  pqDrain (fromList l)

/-- The loop of `general_merge`: `while y.root: x.insert(y.delete_min())`,
with explicit fuel; the pair carries the roots of `x` and `y`. -/
def generalMergeLoop : Nat → Tree α → Tree α → Tree α × Tree α
  | 0, x, y => (x, y)
  | _ + 1, x, .nil => (x, .nil)
  | fuel + 1, x, .node v l r =>
      generalMergeLoop fuel (insert x (leftmostAux v l))
        (remove (.node v l r) (leftmostAux v l))

/-- `general_merge(x, y)` from `src/pq.py`: destructively move all of `y`
into `x` by repeated `delete_min`/`insert`; the result pair holds the final
roots of `x` (also the returned queue) and of `y`. -/
def general_merge (x y : Tree α) : Tree α × Tree α :=
  generalMergeLoop (size y) x y

/-- The two-pointer loop `while i<len(pq1) and j<len(pq2)` of
`general_merge_persistent`, with fuel; once one list is exhausted the two
leftover tails are appended (the final `extend`s). -/
def mergeLoop : Nat → List α → List α → List α
  | 0, xs, ys => xs ++ ys
  | _ + 1, [], ys => ys
  | _ + 1, x :: xs, [] => x :: xs
  | fuel + 1, x :: xs, y :: ys =>
      if x < y then x :: mergeLoop fuel xs (y :: ys)
      else y :: mergeLoop fuel (x :: xs) ys

/-- The two-pointer linear merge of `general_merge_persistent`: each loop
iteration advances one of the two indices, so the sum of the lengths is an
upper bound on the iteration count. -/
def mergeLists (l₁ l₂ : List α) : List α :=
  mergeLoop (l₁.length + l₂.length) l₁ l₂

/-- `general_merge_persistent(x, y)` from `src/pq.py`: `pq_sort` the
iterations of `x` and `y` (this drains fresh copies, never `x`, `y`
themselves), merge the two lists, build a new queue from the result.  The
triple holds the returned root and the (untouched) roots of `x` and `y`
after the call. -/
def general_merge_persistent (x y : Tree α) : Tree α × Tree α × Tree α :=
  (fromList (mergeLists (pq_sort (iterate x)) (pq_sort (iterate y))), x, y)

/-- Graft `c` as the right child of the rightmost node of the first tree,
modelling the in-place link mutation `tree.right = Node(...)` performed at
the rightmost node. -/
def attachRight : Tree α → Tree α → Tree α
  | .nil, c => c
  | .node v l .nil, c => .node v l c
  | .node v l (.node w rl rr), c => .node v l (attachRight (.node w rl rr) c)

/-- The loop of `special_merge`: while `y` is non-empty, extract its
minimum and attach it as a fresh node at the current rightmost position of
`x`; with explicit fuel. -/
def specialMergeLoop : Nat → Tree α → Tree α → Tree α × Tree α
  | 0, x, y => (x, y)
  | _ + 1, x, .nil => (x, .nil)
  | fuel + 1, x, .node v l r =>
      specialMergeLoop fuel
        (attachRight x (.node (leftmostAux v l) .nil .nil))
        (remove (.node v l r) (leftmostAux v l))

/-- `special_merge(x, y)` from `src/pq.py`: take `rightmost(x.root)` and
`y.min_val` (each fails on an empty operand), `assert` the range
precondition, then run the attaching loop.  The pair holds the final roots
of `x` (the returned queue) and `y`. -/
def special_merge (x y : Tree α) : Except PQError (Tree α × Tree α) := do
  let largestX ← rightmostE x
  let smallestY ← min_val y
  if largestX < smallestY then
    pure (specialMergeLoop (size y) x y)
  else
    .error .assertionFailed

/-- `special_merge_persistent(x, y)` from `src/pq.py`: same precondition
check, then concatenate the `pq_sort`s of the two iterations and build a
new queue.  The triple holds the returned root and the untouched roots of
`x` and `y`. -/
def special_merge_persistent (x y : Tree α) :
    Except PQError (Tree α × Tree α × Tree α) := do
  let largestX ← rightmostE x
  let smallestY ← min_val y
  if largestX < smallestY then
    pure (fromList (pq_sort (iterate x) ++ pq_sort (iterate y)), x, y)
  else
    .error .assertionFailed

/-- The BST order invariant (spec §3): at every node all left values are
smaller and all right values larger than the node value. -/
def BST : Tree α → Prop
  | .nil => True
  | .node v l r =>
      (∀ a ∈ iterate l, a < v) ∧ (∀ a ∈ iterate r, v < a) ∧ BST l ∧ BST r

instance instDecidableBST : (t : Tree α) → Decidable (BST t)
  | .nil => .isTrue trivial
  | .node v l r =>
      letI := instDecidableBST l
      letI := instDecidableBST r
      inferInstanceAs (Decidable ((∀ a ∈ iterate l, a < v) ∧
        (∀ a ∈ iterate r, v < a) ∧ BST l ∧ BST r))

@[simp] theorem iterate_nil : iterate (.nil : Tree α) = [] := rfl

@[simp] theorem iterate_node (v : α) (l r : Tree α) :
    iterate (.node v l r) = iterate l ++ v :: iterate r := rfl

@[simp] theorem BST_nil : BST (.nil : Tree α) := trivial

theorem BST_node_iff {v : α} {l r : Tree α} :
    BST (.node v l r) ↔
      (∀ a ∈ iterate l, a < v) ∧ (∀ a ∈ iterate r, v < a) ∧ BST l ∧ BST r :=
  Iff.rfl

theorem mem_iterate_insert (t : Tree α) (v a : α) :
    a ∈ iterate (insert t v) ↔ a = v ∨ a ∈ iterate t := by
  induction t with
  | nil => simp [insert]
  | node w l r ihl ihr =>
      simp only [insert]
      rcases lt_trichotomy v w with h | h | h
      · rw [if_pos h]
        simp only [iterate_node, List.mem_append, List.mem_cons, ihl]
        tauto
      · subst h
        rw [if_neg (lt_irrefl v), if_neg (lt_irrefl v)]
        simp only [iterate_node, List.mem_append, List.mem_cons]
        tauto
      · rw [if_neg (asymm h), if_pos h]
        simp only [iterate_node, List.mem_append, List.mem_cons, ihr]
        tauto

theorem BST_insert (t : Tree α) (v : α) (h : BST t) : BST (insert t v) := by
  induction t with
  | nil => simp [insert, BST_node_iff]
  | node w l r ihl ihr =>
      obtain ⟨hl, hr, hbl, hbr⟩ := BST_node_iff.mp h
      rcases lt_trichotomy v w with hc | hc | hc
      · rw [insert, if_pos hc]
        refine BST_node_iff.mpr ⟨?_, hr, ihl hbl, hbr⟩
        intro a ha
        rcases (mem_iterate_insert l v a).mp ha with rfl | ha
        · exact hc
        · exact hl a ha
      · subst hc
        rw [insert, if_neg (lt_irrefl v), if_neg (lt_irrefl v)]
        exact h
      · rw [insert, if_neg (asymm hc), if_pos hc]
        refine BST_node_iff.mpr ⟨hl, ?_, hbl, ihr hbr⟩
        intro a ha
        rcases (mem_iterate_insert r v a).mp ha with rfl | ha
        · exact hc
        · exact hr a ha

theorem pairwise_iterate (t : Tree α) (h : BST t) :
    (iterate t).Pairwise (· < ·) := by
  induction t with
  | nil => simp
  | node v l r ihl ihr =>
      obtain ⟨hl, hr, hbl, hbr⟩ := BST_node_iff.mp h
      rw [iterate_node, List.pairwise_append]
      refine ⟨ihl hbl, List.pairwise_cons.mpr ⟨hr, ihr hbr⟩, ?_⟩
      intro a ha b hb
      rcases List.mem_cons.mp hb with rfl | hb
      · exact hl a ha
      · exact lt_trans (hl a ha) (hr b hb)

/-- Two strictly ascending lists with the same members are equal. -/
theorem eq_of_pairwise_lt_of_mem_iff :
    ∀ {l₁ l₂ : List α}, l₁.Pairwise (· < ·) → l₂.Pairwise (· < ·) →
      (∀ a, a ∈ l₁ ↔ a ∈ l₂) → l₁ = l₂
  | [], [], _, _, _ => rfl
  | [], b :: l₂, _, _, hm => by
      exact absurd ((hm b).mpr (List.mem_cons_self b l₂)) (List.not_mem_nil b)
  | a :: l₁, [], _, _, hm => by
      exact absurd ((hm a).mp (List.mem_cons_self a l₁)) (List.not_mem_nil a)
  | a :: l₁, b :: l₂, h₁, h₂, hm => by
      obtain ⟨ha, h₁'⟩ := List.pairwise_cons.mp h₁
      obtain ⟨hb, h₂'⟩ := List.pairwise_cons.mp h₂
      have hab : a = b := by
        rcases List.mem_cons.mp ((hm a).mp (List.mem_cons_self a l₁)) with h | h
        · exact h
        · rcases List.mem_cons.mp ((hm b).mpr (List.mem_cons_self b l₂)) with h' | h'
          · exact h'.symm
          · exact absurd (lt_trans (ha b h') (hb a h)) (lt_irrefl a)
      subst hab
      have : l₁ = l₂ := by
        refine eq_of_pairwise_lt_of_mem_iff h₁' h₂' ?_
        intro x
        constructor
        · intro hx
          rcases List.mem_cons.mp ((hm x).mp (List.mem_cons.mpr (Or.inr hx))) with h | h
          · exact absurd (h ▸ ha x hx) (lt_irrefl a)
          · exact h
        · intro hx
          rcases List.mem_cons.mp ((hm x).mpr (List.mem_cons.mpr (Or.inr hx))) with h | h
          · exact absurd (h ▸ hb x hx) (lt_irrefl a)
          · exact h
      rw [this]

/-- The value computed by the `rightmost` loop is a member of the tree and
bounds every member from above (for trees satisfying the invariant). -/
theorem rightmostAux_spec (r : Tree α) : ∀ (v : α) (l : Tree α),
    BST (.node v l r) →
      rightmostAux v r ∈ iterate (.node v l r) ∧
      ∀ a ∈ iterate (.node v l r), a ≤ rightmostAux v r := by
  induction r with
  | nil =>
      intro v l h
      obtain ⟨hl, _, _, _⟩ := BST_node_iff.mp h
      constructor
      · exact List.mem_append.mpr (Or.inr (List.mem_cons_self _ _))
      · intro a ha
        rcases List.mem_append.mp ha with ha | ha
        · exact le_of_lt (hl a ha)
        · rcases List.mem_cons.mp ha with rfl | ha
          · exact le_refl a
          · exact absurd ha (List.not_mem_nil a)
  | node w rl rr ihl ihr =>
      intro v l h
      obtain ⟨hl, hr, hbl, hbr⟩ := BST_node_iff.mp h
      obtain ⟨hmem, hmax⟩ := ihr w rl hbr
      constructor
      · exact List.mem_append.mpr (Or.inr (List.mem_cons_of_mem v hmem))
      · intro a ha
        have hvm : v < rightmostAux w rr := hr _ hmem
        rcases List.mem_append.mp ha with ha | ha
        · exact le_of_lt (lt_trans (hl a ha) hvm)
        · rcases List.mem_cons.mp ha with rfl | ha
          · exact le_of_lt hvm
          · exact hmax a ha

/-- The value computed by the `leftmost` loop is a member of the tree and
bounds every member from below (for trees satisfying the invariant). -/
theorem leftmostAux_spec (l : Tree α) : ∀ (v : α) (r : Tree α),
    BST (.node v l r) →
      leftmostAux v l ∈ iterate (.node v l r) ∧
      ∀ a ∈ iterate (.node v l r), leftmostAux v l ≤ a := by
  induction l with
  | nil =>
      intro v r h
      obtain ⟨_, hr, _, _⟩ := BST_node_iff.mp h
      constructor
      · exact List.mem_append.mpr (Or.inr (List.mem_cons_self _ _))
      · intro a ha
        rcases List.mem_append.mp ha with ha | ha
        · exact absurd ha (List.not_mem_nil a)
        · rcases List.mem_cons.mp ha with rfl | ha
          · exact le_refl a
          · exact le_of_lt (hr a ha)
  | node w ll lr ihl ihr =>
      intro v r h
      obtain ⟨hl, hr, hbl, hbr⟩ := BST_node_iff.mp h
      obtain ⟨hmem, hmin⟩ := ihl w lr hbl
      constructor
      · exact List.mem_append.mpr (Or.inl hmem)
      · intro a ha
        have hvm : leftmostAux w ll < v := hl _ hmem
        rcases List.mem_append.mp ha with ha | ha
        · exact hmin a ha
        · rcases List.mem_cons.mp ha with rfl | ha
          · exact le_of_lt hvm
          · exact le_of_lt (lt_trans hvm (hr a ha))

/-- The `leftmost` value heads the in-order traversal (no invariant
needed). -/
theorem iterate_head_leftmost (l : Tree α) : ∀ (v : α) (r : Tree α),
    ∃ tl : List α, iterate (.node v l r) = leftmostAux v l :: tl := by
  induction l with
  | nil =>
      intro v r
      exact ⟨iterate r, rfl⟩
  | node w ll lr ihl ihr =>
      intro v r
      obtain ⟨tl, htl⟩ := ihl w lr
      refine ⟨tl ++ v :: iterate r, ?_⟩
      rw [show leftmostAux v (Tree.node w ll lr) = leftmostAux w ll from rfl,
        iterate_node, htl]
      simp

theorem mem_iterate_node {a v : α} {l r : Tree α} :
    a ∈ iterate (.node v l r) ↔ a ∈ iterate l ∨ a = v ∨ a ∈ iterate r := by
  rw [iterate_node, List.mem_append, List.mem_cons]

theorem remove_lt (val w : α) (l r : Tree α) (h : val < w) :
    remove (.node w l r) val = .node w (remove l val) r := by
  conv_lhs => rw [remove.eq_def]
  dsimp only
  rw [if_pos h]

theorem remove_gt (val w : α) (l r : Tree α) (h : w < val) :
    remove (.node w l r) val = .node w l (remove r val) := by
  conv_lhs => rw [remove.eq_def]
  dsimp only
  rw [if_neg (asymm h), if_pos h]

theorem remove_self_nil_left (w : α) (r : Tree α) :
    remove (.node w .nil r) w = r := by
  conv_lhs => rw [remove.eq_def]
  dsimp only
  rw [if_neg (lt_irrefl w), if_neg (lt_irrefl w)]

theorem remove_self_nil_right (w lv : α) (ll lr : Tree α) :
    remove (.node w (.node lv ll lr) .nil) w = .node lv ll lr := by
  conv_lhs => rw [remove.eq_def]
  dsimp only
  rw [if_neg (lt_irrefl w), if_neg (lt_irrefl w)]

theorem remove_self_both (w lv : α) (ll lr : Tree α) (rv : α) (rl rr : Tree α) :
    remove (.node w (.node lv ll lr) (.node rv rl rr)) w =
      .node (rightmostAux lv lr)
        (remove (.node lv ll lr) (rightmostAux lv lr))
        (.node rv rl rr) := by
  conv_lhs => rw [remove.eq_def]
  dsimp only
  rw [if_neg (lt_irrefl w), if_neg (lt_irrefl w)]

/-- Removing `v` removes exactly `v` from the value set (on trees
satisfying the invariant). -/
theorem mem_iterate_remove (t : Tree α) (h : BST t) : ∀ (v a : α),
    a ∈ iterate (remove t v) ↔ a ∈ iterate t ∧ a ≠ v := by
  induction t with
  | nil => intro v a; simp [remove]
  | node w l r ihl ihr =>
      rename_i h
      intro v a
      obtain ⟨hl, hr, hbl, hbr⟩ := BST_node_iff.mp h
      rcases lt_trichotomy v w with hc | hc | hc
      · rw [remove_lt v w l r hc, mem_iterate_node, mem_iterate_node,
          ihl hbl v a]
        constructor
        · rintro (⟨ha, hne⟩ | rfl | ha)
          · exact ⟨Or.inl ha, hne⟩
          · exact ⟨Or.inr (Or.inl rfl), ne_of_gt hc⟩
          · exact ⟨Or.inr (Or.inr ha), ne_of_gt (lt_trans hc (hr a ha))⟩
        · rintro ⟨ha | rfl | ha, hne⟩
          · exact Or.inl ⟨ha, hne⟩
          · exact Or.inr (Or.inl rfl)
          · exact Or.inr (Or.inr ha)
      · subst hc
        match l, r with
        | .nil, r =>
            rw [remove_self_nil_left, mem_iterate_node]
            simp only [iterate_nil, List.not_mem_nil, false_or]
            constructor
            · intro ha
              exact ⟨Or.inr ha, ne_of_gt (hr a ha)⟩
            · rintro ⟨rfl | ha, hne⟩
              · exact absurd rfl hne
              · exact ha
        | .node lv ll lr, .nil =>
            rw [remove_self_nil_right]
            constructor
            · intro ha
              exact ⟨mem_iterate_node.mpr (Or.inl ha), ne_of_lt (hl a ha)⟩
            · rintro ⟨ha, hne⟩
              rcases mem_iterate_node.mp ha with ha | rfl | ha
              · exact ha
              · exact absurd rfl hne
              · exact absurd ha (List.not_mem_nil a)
        | .node lv ll lr, .node rv rl rr =>
            obtain ⟨hrmem, hrmax⟩ := rightmostAux_spec lr lv ll hbl
            rw [remove_self_both]
            constructor
            · intro hmem
              rcases mem_iterate_node.mp hmem with ha | rfl | ha
              · obtain ⟨ha, hne⟩ := (ihl hbl (rightmostAux lv lr) a).mp ha
                exact ⟨mem_iterate_node.mpr (Or.inl ha), ne_of_lt (hl a ha)⟩
              · exact ⟨mem_iterate_node.mpr (Or.inl hrmem), ne_of_lt (hl _ hrmem)⟩
              · exact ⟨mem_iterate_node.mpr (Or.inr (Or.inr ha)),
                  ne_of_gt (hr a ha)⟩
            · rintro ⟨hmem, hne⟩
              rcases mem_iterate_node.mp hmem with ha | rfl | ha
              · by_cases hrm : a = rightmostAux lv lr
                · exact mem_iterate_node.mpr (Or.inr (Or.inl hrm))
                · exact mem_iterate_node.mpr
                    (Or.inl ((ihl hbl (rightmostAux lv lr) a).mpr ⟨ha, hrm⟩))
              · exact absurd rfl hne
              · exact mem_iterate_node.mpr (Or.inr (Or.inr ha))
      · rw [remove_gt v w l r hc, mem_iterate_node, mem_iterate_node,
          ihr hbr v a]
        constructor
        · rintro (ha | rfl | ⟨ha, hne⟩)
          · exact ⟨Or.inl ha, ne_of_lt (lt_trans (hl a ha) hc)⟩
          · exact ⟨Or.inr (Or.inl rfl), ne_of_lt hc⟩
          · exact ⟨Or.inr (Or.inr ha), hne⟩
        · rintro ⟨ha | rfl | ha, hne⟩
          · exact Or.inl ha
          · exact Or.inr (Or.inl rfl)
          · exact Or.inr (Or.inr ⟨ha, hne⟩)

/-- The BST invariant is preserved by `remove`. -/
theorem BST_remove (t : Tree α) (h : BST t) : ∀ v : α, BST (remove t v) := by
  induction t with
  | nil => intro v; exact trivial
  | node w l r ihl ihr =>
      rename_i h
      intro v
      obtain ⟨hl, hr, hbl, hbr⟩ := BST_node_iff.mp h
      rcases lt_trichotomy v w with hc | hc | hc
      · rw [remove_lt v w l r hc]
        refine BST_node_iff.mpr ⟨?_, hr, ihl hbl v, hbr⟩
        intro a ha
        exact hl a ((mem_iterate_remove l hbl v a).mp ha).1
      · subst hc
        match l, r with
        | .nil, r =>
            rw [remove_self_nil_left]
            exact hbr
        | .node lv ll lr, .nil =>
            rw [remove_self_nil_right]
            exact hbl
        | .node lv ll lr, .node rv rl rr =>
            obtain ⟨hrmem, hrmax⟩ := rightmostAux_spec lr lv ll hbl
            rw [remove_self_both]
            refine BST_node_iff.mpr ⟨?_, ?_, ihl hbl _, hbr⟩
            · intro a ha
              obtain ⟨ha, hne⟩ :=
                (mem_iterate_remove _ hbl (rightmostAux lv lr) a).mp ha
              exact lt_of_le_of_ne (hrmax a ha) hne
            · intro a ha
              exact lt_trans (hl _ hrmem) (hr a ha)
      · rw [remove_gt v w l r hc]
        refine BST_node_iff.mpr ⟨hl, ?_, hbl, ihr hbr v⟩
        intro a ha
        exact hr a ((mem_iterate_remove r hbr v a).mp ha).1

theorem size_eq_length (t : Tree α) : size t = (iterate t).length := by
  induction t with
  | nil => rfl
  | node v l r ihl ihr =>
      rw [size, iterate_node, List.length_append, List.length_cons, ihl, ihr]
      omega

/-- Extracting the minimum of a non-empty invariant tree peels off exactly
the head of the in-order traversal. -/
theorem iterate_remove_min (v : α) (l r : Tree α) (h : BST (.node v l r)) :
    iterate (.node v l r) =
      leftmostAux v l :: iterate (remove (.node v l r) (leftmostAux v l)) := by
  obtain ⟨tl, htl⟩ := iterate_head_leftmost l v r
  have hpw : (iterate (Tree.node v l r)).Pairwise (· < ·) :=
    pairwise_iterate _ h
  rw [htl] at hpw ⊢
  obtain ⟨hhead, htail⟩ := List.pairwise_cons.mp hpw
  have : iterate (remove (Tree.node v l r) (leftmostAux v l)) = tl := by
    refine eq_of_pairwise_lt_of_mem_iff
      (pairwise_iterate _ (BST_remove _ h (leftmostAux v l))) htail ?_
    intro a
    rw [mem_iterate_remove _ h (leftmostAux v l) a, htl]
    constructor
    · rintro ⟨ha, hne⟩
      rcases List.mem_cons.mp ha with rfl | ha
      · exact absurd rfl hne
      · exact ha
    · intro ha
      exact ⟨List.mem_cons_of_mem _ ha, ne_of_gt (hhead a ha)⟩
  rw [this]

/-- With fuel at least the tree size, the draining loop of `pq_sort`
produces exactly the in-order traversal. -/
theorem drainFuel_eq : ∀ (fuel : Nat) (t : Tree α), BST t →
    size t ≤ fuel → drainFuel fuel t = iterate t := by
  intro fuel
  induction fuel with
  | zero =>
      intro t h hs
      match t with
      | .nil => rfl
      | .node v l r => exact absurd hs (by rw [size]; omega)
  | succ fuel ih =>
      intro t h hs
      match t with
      | .nil => rfl
      | .node v l r =>
          rw [drainFuel]
          have hit := iterate_remove_min v l r h
          have hsz : size (remove (.node v l r) (leftmostAux v l)) ≤ fuel := by
            have h1 := size_eq_length (Tree.node v l r)
            have h2 := size_eq_length (remove (.node v l r) (leftmostAux v l))
            rw [hit, List.length_cons] at h1
            rw [size] at hs h1
            omega
          rw [ih _ (BST_remove _ h (leftmostAux v l)) hsz, hit]

theorem pqDrain_eq (t : Tree α) (h : BST t) : pqDrain t = iterate t :=
  drainFuel_eq (size t) t h (le_refl _)

/-- Building a tree by repeated insertion keeps the invariant and collects
exactly the inserted values. -/
theorem foldl_insert_spec (l : List α) : ∀ t : Tree α, BST t →
    BST (l.foldl insert t) ∧
    ∀ a, a ∈ iterate (l.foldl insert t) ↔ a ∈ l ∨ a ∈ iterate t := by
  induction l with
  | nil =>
      intro t h
      exact ⟨h, fun a => by simp⟩
  | cons x xs ih =>
      intro t h
      obtain ⟨hb, hm⟩ := ih (insert t x) (BST_insert t x h)
      refine ⟨hb, fun a => ?_⟩
      rw [List.foldl_cons, hm a, mem_iterate_insert, List.mem_cons]
      tauto

theorem BST_fromList (l : List α) : BST (fromList l) :=
  (foldl_insert_spec l .nil trivial).1

theorem mem_fromList (l : List α) (a : α) :
    a ∈ iterate (fromList l) ↔ a ∈ l := by
  rw [show fromList l = l.foldl insert .nil from rfl,
    (foldl_insert_spec l .nil trivial).2 a, iterate_nil]
  simp

theorem st_sort_pairwise (l : List α) : (st_sort l).Pairwise (· < ·) :=
  pairwise_iterate _ (BST_fromList l)

theorem mem_st_sort (l : List α) (a : α) : a ∈ st_sort l ↔ a ∈ l :=
  mem_fromList l a

theorem pq_sort_eq_st_sort (l : List α) : pq_sort l = st_sort l :=
  pqDrain_eq (fromList l) (BST_fromList l)

/-- Sorting an already strictly ascending list returns it unchanged. -/
theorem st_sort_of_pairwise (l : List α) (h : l.Pairwise (· < ·)) :
    st_sort l = l :=
  eq_of_pairwise_lt_of_mem_iff (st_sort_pairwise l) h (mem_st_sort l)

theorem size_remove_min (v : α) (l r : Tree α) (h : BST (.node v l r)) :
    size (remove (.node v l r) (leftmostAux v l)) + 1 = size (.node v l r) := by
  have h1 := size_eq_length (Tree.node v l r)
  have h2 := size_eq_length (remove (.node v l r) (leftmostAux v l))
  rw [iterate_remove_min v l r h, List.length_cons] at h1
  omega

theorem mem_mergeLoop : ∀ (fuel : Nat) (l₁ l₂ : List α) (a : α),
    a ∈ mergeLoop fuel l₁ l₂ ↔ a ∈ l₁ ∨ a ∈ l₂ := by
  intro fuel
  induction fuel with
  | zero => intro l₁ l₂ a; simp [mergeLoop]
  | succ fuel ih =>
      intro l₁ l₂ a
      match l₁, l₂ with
      | [], ys => simp [mergeLoop]
      | x :: xs, [] => simp [mergeLoop]
      | x :: xs, y :: ys =>
          show a ∈ (if x < y then x :: mergeLoop fuel xs (y :: ys)
            else y :: mergeLoop fuel (x :: xs) ys) ↔ _
          by_cases h : x < y
          · rw [if_pos h]
            simp only [List.mem_cons, ih]
            tauto
          · rw [if_neg h]
            simp only [List.mem_cons, ih]
            tauto

theorem mem_mergeLists (l₁ l₂ : List α) (a : α) :
    a ∈ mergeLists l₁ l₂ ↔ a ∈ l₁ ∨ a ∈ l₂ :=
  mem_mergeLoop (l₁.length + l₂.length) l₁ l₂ a

/-- The `general_merge` loop empties `y` into `x`: once the fuel covers the
size of `y`, the final `y` is empty and the final `x` is an invariant tree
holding the union of the two value sets. -/
theorem generalMergeLoop_spec : ∀ (fuel : Nat) (x y : Tree α), BST x → BST y →
    size y ≤ fuel →
    (generalMergeLoop fuel x y).2 = .nil ∧
    BST (generalMergeLoop fuel x y).1 ∧
    ∀ a, a ∈ iterate (generalMergeLoop fuel x y).1 ↔
      a ∈ iterate x ∨ a ∈ iterate y := by
  intro fuel
  induction fuel with
  | zero =>
      intro x y hx hy hs
      match y with
      | .nil => exact ⟨rfl, hx, fun a => by simp [generalMergeLoop]⟩
      | .node v l r => exact absurd hs (by rw [size]; omega)
  | succ fuel ih =>
      intro x y hx hy hs
      match y with
      | .nil => exact ⟨rfl, hx, fun a => by simp [generalMergeLoop]⟩
      | .node v l r =>
          have hit := iterate_remove_min v l r hy
          have hsz : size (remove (.node v l r) (leftmostAux v l)) ≤ fuel := by
            have := size_remove_min v l r hy
            rw [size] at hs this
            omega
          obtain ⟨h1, h2, h3⟩ := ih (insert x (leftmostAux v l))
            (remove (.node v l r) (leftmostAux v l))
            (BST_insert x _ hx) (BST_remove _ hy _) hsz
          refine ⟨h1, h2, fun a => ?_⟩
          rw [show generalMergeLoop (fuel + 1) x (.node v l r) =
              generalMergeLoop fuel (insert x (leftmostAux v l))
                (remove (.node v l r) (leftmostAux v l)) from rfl,
            h3 a, mem_iterate_insert, hit, List.mem_cons]
          tauto

theorem iterate_attachRight : ∀ (x c : Tree α),
    iterate (attachRight x c) = iterate x ++ iterate c := by
  intro x
  induction x with
  | nil => intro c; simp [attachRight]
  | node v l r ihl ihr =>
      intro c
      match r with
      | .nil =>
          show iterate (Tree.node v l c) = _
          rw [iterate_node, iterate_node]
          simp
      | .node w rl rr =>
          show iterate (Tree.node v l (attachRight (Tree.node w rl rr) c)) = _
          rw [iterate_node, ihr c, iterate_node]
          simp

/-- The `special_merge` loop empties `y` and appends its ascending values
along the right spine of `x`. -/
theorem specialMergeLoop_spec : ∀ (fuel : Nat) (x y : Tree α), BST y →
    size y ≤ fuel →
    (specialMergeLoop fuel x y).2 = .nil ∧
    iterate (specialMergeLoop fuel x y).1 = iterate x ++ iterate y := by
  intro fuel
  induction fuel with
  | zero =>
      intro x y hy hs
      match y with
      | .nil => exact ⟨rfl, by simp [specialMergeLoop]⟩
      | .node v l r => exact absurd hs (by rw [size]; omega)
  | succ fuel ih =>
      intro x y hy hs
      match y with
      | .nil => exact ⟨rfl, by simp [specialMergeLoop]⟩
      | .node v l r =>
          have hit := iterate_remove_min v l r hy
          have hsz : size (remove (.node v l r) (leftmostAux v l)) ≤ fuel := by
            have := size_remove_min v l r hy
            rw [size] at hs this
            omega
          obtain ⟨h1, h2⟩ := ih
            (attachRight x (.node (leftmostAux v l) .nil .nil))
            (remove (.node v l r) (leftmostAux v l))
            (BST_remove _ hy _) hsz
          refine ⟨h1, ?_⟩
          rw [show specialMergeLoop (fuel + 1) x (.node v l r) =
              specialMergeLoop fuel
                (attachRight x (.node (leftmostAux v l) .nil .nil))
                (remove (.node v l r) (leftmostAux v l)) from rfl,
            h2, iterate_attachRight, hit]
          simp

/-- C1: for every input sequence over a totally ordered type, `st_sort` and
`pq_sort` return the strictly ascending sequence of the distinct values of
the input: the output is strictly sorted, contains exactly the input's
values, and the two sorts agree (strict sortedness plus the membership
characterisation determine the sequence uniquely, by
`eq_of_pairwise_lt_of_mem_iff`). -/
theorem sorts_return_ascending_distinct (l : List α) :
    (st_sort l).Pairwise (· < ·) ∧ (∀ a, a ∈ st_sort l ↔ a ∈ l) ∧
    pq_sort l = st_sort l :=
  ⟨st_sort_pairwise l, mem_st_sort l, pq_sort_eq_st_sort l⟩

/-- C2: the BST order invariant holds for the empty tree and is preserved
by `insert` and `remove`. -/
theorem bst_invariant_preserved (t : Tree α) (v : α) (h : BST t) :
    BST (.nil : Tree α) ∧ BST (insert t v) ∧ BST (remove t v) :=
  ⟨trivial, BST_insert t v h, BST_remove t h v⟩

theorem bst_invariant_preserved_witness :
    BST (fromList ([2, 1, 3] : List ℕ)) ∧
    (BST (.nil : Tree ℕ) ∧ BST (insert (fromList [2, 1, 3]) 2) ∧
     BST (remove (fromList [2, 1, 3]) 2)) :=
  ⟨by decide, bst_invariant_preserved (fromList [2, 1, 3]) 2 (by decide)⟩

/-- C3: `remove` yields exactly the values of the tree minus `v` (no-op on
the empty tree and for absent values), and at a root equal to `v` with two
children the result's root value is the rightmost value of the left
subtree, recursively removed from that left subtree. -/
theorem remove_functional_spec (t : Tree α) (v : α) (h : BST t) :
    remove (.nil : Tree α) v = .nil ∧
    (∀ a, a ∈ iterate (remove t v) ↔ a ∈ iterate t ∧ a ≠ v) ∧
    ∀ (lv : α) (ll lr : Tree α) (rv : α) (rl rr : Tree α),
      t = .node v (.node lv ll lr) (.node rv rl rr) →
      remove t v = .node (rightmostAux lv lr)
        (remove (.node lv ll lr) (rightmostAux lv lr)) (.node rv rl rr) :=
  ⟨rfl, mem_iterate_remove t h v,
   fun lv ll lr rv rl rr ht => by
    rw [ht]
    exact remove_self_both v lv ll lr rv rl rr⟩

theorem remove_functional_spec_witness :
    BST (Tree.node 2 (Tree.node 1 .nil .nil) (Tree.node 3 .nil .nil) : Tree ℕ) ∧
    (remove (.nil : Tree ℕ) 2 = .nil ∧
     (∀ a, a ∈ iterate (remove
          (Tree.node 2 (Tree.node 1 .nil .nil) (Tree.node 3 .nil .nil)) 2) ↔
        a ∈ iterate (Tree.node 2 (Tree.node 1 .nil .nil)
          (Tree.node 3 .nil .nil)) ∧ a ≠ 2) ∧
     ∀ (lv : ℕ) (ll lr : Tree ℕ) (rv : ℕ) (rl rr : Tree ℕ),
       Tree.node 2 (Tree.node 1 .nil .nil) (Tree.node 3 .nil .nil) =
         .node 2 (.node lv ll lr) (.node rv rl rr) →
       remove (Tree.node 2 (Tree.node 1 .nil .nil) (Tree.node 3 .nil .nil)) 2 =
         .node (rightmostAux lv lr)
           (remove (.node lv ll lr) (rightmostAux lv lr))
           (.node rv rl rr)) :=
  ⟨by decide,
   remove_functional_spec
     (Tree.node 2 (Tree.node 1 .nil .nil) (Tree.node 3 .nil .nil)) 2
     (by decide)⟩

/-- C4: after `general_merge(x, y)` — whose return value is the final state
of `x` — the final `y` is empty and the final `x` iterates the ascending
sequence of the union of the two original value sets. -/
theorem general_merge_spec (x y : Tree α) (hx : BST x) (hy : BST y) :
    (general_merge x y).2 = .nil ∧
    ((iterate (general_merge x y).1).Pairwise (· < ·)) ∧
    ∀ a, a ∈ iterate (general_merge x y).1 ↔
      a ∈ iterate x ∨ a ∈ iterate y := by
  obtain ⟨h1, h2, h3⟩ := generalMergeLoop_spec (size y) x y hx hy (le_refl _)
  exact ⟨h1, pairwise_iterate _ h2, h3⟩

theorem general_merge_spec_witness :
    (BST (fromList ([2, 0, 4] : List ℕ)) ∧ BST (fromList ([1, 3] : List ℕ))) ∧
    ((general_merge (fromList ([2, 0, 4] : List ℕ)) (fromList [1, 3])).2 = .nil ∧
     ((iterate (general_merge (fromList ([2, 0, 4] : List ℕ))
        (fromList [1, 3])).1).Pairwise (· < ·)) ∧
     ∀ a, a ∈ iterate (general_merge (fromList ([2, 0, 4] : List ℕ))
        (fromList [1, 3])).1 ↔
       a ∈ iterate (fromList ([2, 0, 4] : List ℕ)) ∨
       a ∈ iterate (fromList ([1, 3] : List ℕ))) :=
  ⟨⟨by decide, by decide⟩,
   general_merge_spec (fromList [2, 0, 4]) (fromList [1, 3])
     (by decide) (by decide)⟩

/-- C5: for non-empty operands satisfying the range precondition,
`special_merge` succeeds; it empties `y` and returns the final state of
`x`, which iterates `x`'s values followed by `y`'s values, an ascending
sequence of the union. -/
theorem special_merge_spec (xv : α) (xl xr : Tree α) (yv : α) (yl yr : Tree α)
    (hx : BST (.node xv xl xr)) (hy : BST (.node yv yl yr))
    (hlt : rightmostAux xv xr < leftmostAux yv yl) :
    ∃ z : Tree α,
      special_merge (.node xv xl xr) (.node yv yl yr) = .ok (z, .nil) ∧
      iterate z = iterate (.node xv xl xr) ++ iterate (.node yv yl yr) ∧
      (iterate z).Pairwise (· < ·) := by
  obtain ⟨h1, h2⟩ := specialMergeLoop_spec (size (.node yv yl yr))
    (.node xv xl xr) (.node yv yl yr) hy (le_refl _)
  refine ⟨(specialMergeLoop (size (.node yv yl yr)) (.node xv xl xr)
    (.node yv yl yr)).1, ?_, ?_, ?_⟩
  · show (if rightmostAux xv xr < leftmostAux yv yl then
        (pure (specialMergeLoop (size (.node yv yl yr)) (.node xv xl xr)
          (.node yv yl yr)) : Except PQError (Tree α × Tree α))
      else .error .assertionFailed) = _
    rw [if_pos hlt]
    show Except.ok (specialMergeLoop (size (.node yv yl yr)) (.node xv xl xr)
      (.node yv yl yr)) = _
    rw [show specialMergeLoop (size (.node yv yl yr)) (.node xv xl xr)
        (.node yv yl yr) =
      ((specialMergeLoop (size (.node yv yl yr)) (.node xv xl xr)
        (.node yv yl yr)).1,
       (specialMergeLoop (size (.node yv yl yr)) (.node xv xl xr)
        (.node yv yl yr)).2) from rfl, h1]
  · exact h2
  · rw [h2, List.pairwise_append]
    refine ⟨pairwise_iterate _ hx, pairwise_iterate _ hy, ?_⟩
    intro a ha b hb
    calc a ≤ rightmostAux xv xr := (rightmostAux_spec xr xv xl hx).2 a ha
    _ < leftmostAux yv yl := hlt
    _ ≤ b := (leftmostAux_spec yl yv yr hy).2 b hb

theorem special_merge_spec_witness :
    (BST (Tree.node 1 (Tree.node 0 .nil .nil) .nil : Tree ℕ) ∧
     BST (Tree.node 3 .nil (Tree.node 4 .nil .nil) : Tree ℕ) ∧
     rightmostAux 1 (.nil : Tree ℕ) < leftmostAux 3 (.nil : Tree ℕ)) ∧
    ∃ z : Tree ℕ,
      special_merge (Tree.node 1 (Tree.node 0 .nil .nil) .nil)
        (Tree.node 3 .nil (Tree.node 4 .nil .nil)) = .ok (z, .nil) ∧
      iterate z = iterate (Tree.node 1 (Tree.node 0 .nil .nil) .nil : Tree ℕ) ++
        iterate (Tree.node 3 .nil (Tree.node 4 .nil .nil) : Tree ℕ) ∧
      (iterate z).Pairwise (· < ·) :=
  ⟨⟨by decide, by decide, by decide⟩,
   special_merge_spec 1 (Tree.node 0 .nil .nil) .nil 3 .nil
     (Tree.node 4 .nil .nil) (by decide) (by decide) (by decide)⟩

/-- C6: `general_merge_persistent` returns a new queue iterating the
ascending union of the operands' value sets while both operands keep
exactly their former states (the second and third components model the
states of `x` and `y` after the call). -/
theorem general_merge_persistent_spec (x y : Tree α)
    (hx : BST x) (hy : BST y) :
    (general_merge_persistent x y).2.1 = x ∧
    (general_merge_persistent x y).2.2 = y ∧
    ((iterate (general_merge_persistent x y).1).Pairwise (· < ·)) ∧
    ∀ a, a ∈ iterate (general_merge_persistent x y).1 ↔
      a ∈ iterate x ∨ a ∈ iterate y := by
  refine ⟨rfl, rfl, pairwise_iterate _ (BST_fromList _), fun a => ?_⟩
  show a ∈ iterate (fromList (mergeLists (pq_sort (iterate x))
    (pq_sort (iterate y)))) ↔ _
  rw [mem_fromList, mem_mergeLists, pq_sort_eq_st_sort, pq_sort_eq_st_sort,
    st_sort_of_pairwise _ (pairwise_iterate x hx),
    st_sort_of_pairwise _ (pairwise_iterate y hy)]

theorem general_merge_persistent_spec_witness :
    (BST (fromList ([2, 0, 4] : List ℕ)) ∧ BST (fromList ([1, 3] : List ℕ))) ∧
    ((general_merge_persistent (fromList ([2, 0, 4] : List ℕ))
        (fromList [1, 3])).2.1 = fromList [2, 0, 4] ∧
     (general_merge_persistent (fromList ([2, 0, 4] : List ℕ))
        (fromList [1, 3])).2.2 = fromList [1, 3] ∧
     ((iterate (general_merge_persistent (fromList ([2, 0, 4] : List ℕ))
        (fromList [1, 3])).1).Pairwise (· < ·)) ∧
     ∀ a, a ∈ iterate (general_merge_persistent (fromList ([2, 0, 4] : List ℕ))
        (fromList [1, 3])).1 ↔
       a ∈ iterate (fromList ([2, 0, 4] : List ℕ)) ∨
       a ∈ iterate (fromList ([1, 3] : List ℕ))) :=
  ⟨⟨by decide, by decide⟩,
   general_merge_persistent_spec (fromList [2, 0, 4]) (fromList [1, 3])
     (by decide) (by decide)⟩

/-- C7: on non-empty operands whose computed extrema violate the range
precondition (`x`'s maximum not strictly below `y`'s minimum — under the
invariant `rightmostAux`/`leftmostAux` are exactly these extrema), both
special merges stop with the assertion error instead of returning a
result. -/
theorem special_merge_assertion_failure (xv : α) (xl xr : Tree α)
    (yv : α) (yl yr : Tree α)
    (hx : BST (.node xv xl xr)) (hy : BST (.node yv yl yr))
    (h : ¬ rightmostAux xv xr < leftmostAux yv yl) :
    special_merge (.node xv xl xr) (.node yv yl yr) =
      .error .assertionFailed ∧
    special_merge_persistent (.node xv xl xr) (.node yv yl yr) =
      .error .assertionFailed := by
  constructor
  · show (if rightmostAux xv xr < leftmostAux yv yl then
        (pure (specialMergeLoop (size (.node yv yl yr)) (.node xv xl xr)
          (.node yv yl yr)) : Except PQError (Tree α × Tree α))
      else .error .assertionFailed) = _
    rw [if_neg h]
  · show (if rightmostAux xv xr < leftmostAux yv yl then
        (pure (fromList (pq_sort (iterate (.node xv xl xr)) ++
          pq_sort (iterate (.node yv yl yr))), .node xv xl xr,
          .node yv yl yr) : Except PQError (Tree α × Tree α × Tree α))
      else .error .assertionFailed) = _
    rw [if_neg h]

theorem special_merge_assertion_failure_witness :
    (BST (Tree.node 0 .nil (Tree.node 5 .nil .nil) : Tree ℕ) ∧
     BST (Tree.node 3 .nil (Tree.node 8 .nil .nil) : Tree ℕ) ∧
     ¬ rightmostAux 0 (Tree.node 5 .nil .nil : Tree ℕ) <
       leftmostAux 3 (.nil : Tree ℕ)) ∧
    (special_merge (Tree.node 0 .nil (Tree.node 5 .nil .nil))
       (Tree.node 3 .nil (Tree.node 8 .nil .nil)) =
       .error .assertionFailed ∧
     special_merge_persistent (Tree.node 0 .nil (Tree.node 5 .nil .nil))
       (Tree.node 3 .nil (Tree.node 8 .nil .nil)) =
       .error .assertionFailed) :=
  ⟨⟨by decide, by decide, by decide⟩,
   special_merge_assertion_failure 0 .nil (Tree.node 5 .nil .nil) 3 .nil
     (Tree.node 8 .nil .nil) (by decide) (by decide) (by decide)⟩

/-- C8: reading the minimum (`min_val`) and extracting the minimum
(`delete_min`) of an empty queue both fail immediately with the
empty-container error kind. -/
theorem empty_queue_min_fails :
    min_val (.nil : Tree α) = .error .emptyContainer ∧
    delete_min (.nil : Tree α) = .error .emptyContainer :=
  ⟨rfl, rfl⟩

/-- C9: inserting a value already present returns the very same tree, so
the container's iteration output and value set are unchanged. -/
theorem insert_idempotent (t : Tree α) (v : α) :
    BST t → v ∈ iterate t → insert t v = t := by
  induction t with
  | nil =>
      intro _ hv
      exact absurd hv (List.not_mem_nil v)
  | node w l r ihl ihr =>
      intro h hv
      obtain ⟨hl, hr, hbl, hbr⟩ := BST_node_iff.mp h
      simp only [insert]
      rcases lt_trichotomy v w with hc | hc | hc
      · rw [if_pos hc]
        have hvl : v ∈ iterate l := by
          rcases mem_iterate_node.mp hv with h' | rfl | h'
          · exact h'
          · exact absurd hc (lt_irrefl v)
          · exact absurd (hr v h') (asymm hc)
        rw [ihl hbl hvl]
      · subst hc
        rw [if_neg (lt_irrefl v), if_neg (lt_irrefl v)]
      · rw [if_neg (asymm hc), if_pos hc]
        have hvr : v ∈ iterate r := by
          rcases mem_iterate_node.mp hv with h' | rfl | h'
          · exact absurd (hl v h') (asymm hc)
          · exact absurd hc (lt_irrefl v)
          · exact h'
        rw [ihr hbr hvr]

theorem insert_idempotent_witness :
    (BST (fromList ([3, 1, 4] : List ℕ)) ∧
     1 ∈ iterate (fromList ([3, 1, 4] : List ℕ))) ∧
    insert (fromList ([3, 1, 4] : List ℕ)) 1 = fromList [3, 1, 4] :=
  ⟨⟨by decide, by decide⟩,
   insert_idempotent (fromList [3, 1, 4]) 1 (by decide) (by decide)⟩

/-- C10: with an empty operand, `special_merge` and
`special_merge_persistent` fail in their own precondition check (the
extremum lookup on the empty tree reports the empty-container error)
before any merged result is produced. -/
theorem special_merge_empty_operand (x y : Tree α) (h : x = .nil ∨ y = .nil) :
    special_merge x y = .error .emptyContainer ∧
    special_merge_persistent x y = .error .emptyContainer := by
  rcases h with rfl | rfl
  · exact ⟨rfl, rfl⟩
  · match x with
    | .nil => exact ⟨rfl, rfl⟩
    | .node v l r => exact ⟨rfl, rfl⟩

theorem special_merge_empty_operand_witness :
    ((Tree.nil : Tree ℕ) = .nil ∨ fromList ([1] : List ℕ) = .nil) ∧
    (special_merge (Tree.nil : Tree ℕ) (fromList [1]) =
       .error .emptyContainer ∧
     special_merge_persistent (Tree.nil : Tree ℕ) (fromList [1]) =
       .error .emptyContainer) :=
  ⟨Or.inl rfl, special_merge_empty_operand .nil (fromList [1]) (Or.inl rfl)⟩

end PQ
